import Mathlib

/-
Verification of the GMM-UBM speaker-recognition notebooks
(map_adaptation_gr.ipynb, map_adaptation_vr.ipynb, classic_gmm_vr.ipynb).

The core operations are embedded shallowly:

  map_adapt  — MAP adaptation of a Universal Background Model (UBM):
                 gmm = copy.deepcopy(ubm)
                 for _ in range(max_iter):
                     n = np.sum(gmm.predict_proba(X), axis=0).reshape(-1, 1)
                     X_tilde = (1 / n) * gmm.predict_proba(X).T.dot(X)
                     alpha = (n / (n + r)).reshape(-1, 1)
                     gmm.means_ = alpha * X_tilde + (1 - alpha) * gmm.means_
                 return gmm
  test_models — scoring every test example against every labeled model,
                 predicting by np.argmax and returning mean accuracy.

Matrices are lists of rows.  Scalars are kept generic in the arithmetic
operations so the same embedded code can be read at two scalar models:
exact rationals (the idealised arithmetic) and FP, a model of IEEE-754
special values (infinities and NaN with exact finite arithmetic), used to
examine the unguarded division by a zero soft count.

The E-step (sklearn GaussianMixture.predict_proba) and the scoring
function (GaussianMixture.score) are external library calls; they enter
the embedding as explicit function parameters (resp, scoreFn), so every
theorem below holds for an arbitrary responsibility/scoring oracle.
-/

namespace Recognition

/-- Mat is a matrix as a list of rows (row-major, as numpy 2-d arrays). -/
abbrev Mat (α : Type) := List (List α)

/-- GMM mirrors the sklearn GaussianMixture parameter triple used by the
notebooks: component weights, means (K rows of F entries) and diagonal
covariances (K rows of F entries). -/
structure GMM (α : Type) where
  weights_ : List α
  means_ : Mat α
  covariances_ : Mat α
deriving DecidableEq, Repr

section Ops

variable {α : Type} [Add α] [Mul α] [Sub α] [Div α] [Zero α] [One α]

/-- dot is the real inner product of two equal-length lists. -/
def dot (a b : List α) : α := (List.zipWith (· * ·) a b).sum

/-- colSums models np.sum(m, axis=0) on a non-empty matrix: the list of
column sums. -/
def colSums : Mat α → List α
  | [] => []
  | [row] => row
  | row :: rest => List.zipWith (· + ·) row (colSums rest)

/-- transposeM models numpy transpose (the .T attribute) on a rectangular
matrix: entry (j, t) of the result is entry (t, j) of the input. -/
def transposeM (m : Mat α) : Mat α :=
  (List.range (m.headD []).length).map (fun j => m.map (fun row => row.getD j 0))

/-- matMul is the matrix product A.dot(B) (numpy dot on 2-d arrays). -/
def matMul (A B : Mat α) : Mat α :=
  A.map (fun row => (transposeM B).map (fun col => dot row col))

/-- scaleRows models broadcasting a (K, 1) column against a (K, F) matrix:
row k is multiplied elementwise by the k-th scalar. -/
def scaleRows (s : List α) (m : Mat α) : Mat α :=
  List.zipWith (fun c row => row.map (fun x => c * x)) s m

/-- alphaOf is the adaptation coefficient n / (n + r) of one component. -/
def alphaOf (n r : α) : α := n / (n + r)

/-- blendScalar is one coordinate of the mean update:
a * x + (1 - a) * m. -/
def blendScalar (a x m : α) : α := a * x + (1 - a) * m

/-- zipWith3 combines three lists pointwise, stopping at the shortest. -/
def zipWith3 {β γ δ ε : Type} (f : β → γ → δ → ε) :
    List β → List γ → List δ → List ε
  | a :: as, x :: xs, m :: ms => f a x m :: zipWith3 f as xs ms
  | _, _, _ => []

/-- blendRows is the matrix form of the mean update
alpha * X_tilde + (1 - alpha) * means, with alpha a (K, 1) column
broadcast across the rows. -/
def blendRows (alpha : List α) (xt mu : Mat α) : Mat α :=
  zipWith3 (fun a xr mr => List.zipWith (fun x m => blendScalar a x m) xr mr) alpha xt mu

/-- adaptStep is the body of the map_adapt loop, translated line by line:
n, X_tilde, alpha, and the assignment to gmm.means_.  The E-step
(predict_proba) is the explicit parameter resp. -/
def adaptStep (resp : GMM α → Mat α → Mat α) (X : Mat α) (r : α) (gmm : GMM α) : GMM α :=
  let p := resp gmm X
  let n := colSums p
  let X_tilde := scaleRows (n.map (fun v => 1 / v)) (matMul (transposeM p) X)
  let alpha := n.map (fun v => alphaOf v r)
  { gmm with means_ := blendRows alpha X_tilde gmm.means_ }

/-- map_adapt is the notebooks' MAP adaptation: deep-copy the UBM, then run
the update body exactly max_iter times on the copy.  In the pure embedding
the deep copy is the starting value itself; the aliasing structure of the
original is modelled separately by map_adaptS. -/
def map_adapt (resp : GMM α → Mat α → Mat α) (ubm : GMM α) (X : Mat α)
    (max_iter : Nat) (r : α) : GMM α :=
  (adaptStep resp X r)^[max_iter] ubm

end Ops

section HeapModel

variable {α : Type} [Add α] [Mul α] [Sub α] [Div α] [Zero α] [One α]

/-- Heap is a store of GMM objects addressed by index, modelling Python
object identity: distinct indices are distinct objects. -/
abbrev Heap (α : Type) := List (GMM α)

/-- heapGet reads the object a reference points to. -/
def heapGet (h : Heap α) (ref : Nat) : GMM α := h.getD ref ⟨[], [], []⟩

/-- deepcopy models copy.deepcopy: it allocates a fresh object with the
same contents and returns the new reference. -/
def deepcopy (h : Heap α) (ref : Nat) : Heap α × Nat :=
  (h ++ [heapGet h ref], h.length)

/-- setMeans models the in-place assignment gmm.means_ = ... : only the
object the reference points to changes. -/
def setMeans (h : Heap α) (ref : Nat) (m : Mat α) : Heap α :=
  h.set ref { heapGet h ref with means_ := m }

/-- adaptStepS is the loop body acting on the heap: it reads the adapted
model, computes the update, and assigns the new means in place. -/
def adaptStepS (resp : GMM α → Mat α → Mat α) (X : Mat α) (r : α)
    (st : Heap α × Nat) : Heap α × Nat :=
  let gmm := heapGet st.1 st.2
  let p := resp gmm X
  let n := colSums p
  let X_tilde := scaleRows (n.map (fun v => 1 / v)) (matMul (transposeM p) X)
  let alpha := n.map (fun v => alphaOf v r)
  (setMeans st.1 st.2 (blendRows alpha X_tilde gmm.means_), st.2)

/-- map_adaptS is map_adapt at the heap level: deep-copy the UBM object,
then mutate only the copy for max_iter iterations. -/
def map_adaptS (resp : GMM α → Mat α → Mat α) (h : Heap α) (ubmRef : Nat)
    (X : Mat α) (max_iter : Nat) (r : α) : Heap α × Nat :=
  (adaptStepS resp X r)^[max_iter] (deepcopy h ubmRef)

end HeapModel

/-- FP models an IEEE-754 double as far as the special values are
concerned: NaN, the two infinities, and finite values carried exactly as
rationals (rounding is not modelled; the sign of zero is not modelled).
It is used to follow what numpy actually produces when map_adapt divides
by a zero soft count. -/
inductive FP where
  | nan : FP
  | inf : FP
  | ninf : FP
  | num : ℚ → FP
deriving DecidableEq, Repr

namespace FP

/-- fpNeg is IEEE negation. -/
def fpNeg : FP → FP
  | nan => nan
  | inf => ninf
  | ninf => inf
  | num q => num (-q)

/-- fpAdd is IEEE addition on the special values, exact on finite values. -/
def fpAdd : FP → FP → FP
  | nan, _ => nan
  | _, nan => nan
  | inf, ninf => nan
  | ninf, inf => nan
  | inf, _ => inf
  | _, inf => inf
  | ninf, _ => ninf
  | _, ninf => ninf
  | num a, num b => num (a + b)

/-- fpMul is IEEE multiplication on the special values (in particular
inf * 0 = NaN), exact on finite values. -/
def fpMul : FP → FP → FP
  | nan, _ => nan
  | _, nan => nan
  | inf, inf => inf
  | inf, ninf => ninf
  | ninf, inf => ninf
  | ninf, ninf => inf
  | inf, num q => if 0 < q then inf else if q < 0 then ninf else nan
  | num q, inf => if 0 < q then inf else if q < 0 then ninf else nan
  | ninf, num q => if 0 < q then ninf else if q < 0 then inf else nan
  | num q, ninf => if 0 < q then ninf else if q < 0 then inf else nan
  | num a, num b => num (a * b)

/-- fpDiv is IEEE division on the special values: a nonzero finite value
divided by zero is a signed infinity, 0/0 is NaN, exact otherwise. -/
def fpDiv : FP → FP → FP
  | nan, _ => nan
  | _, nan => nan
  | inf, inf => nan
  | inf, ninf => nan
  | ninf, inf => nan
  | ninf, ninf => nan
  | inf, num q => if 0 ≤ q then inf else ninf
  | ninf, num q => if 0 ≤ q then ninf else inf
  | num _, inf => num 0
  | num _, ninf => num 0
  | num a, num b =>
      if b = 0 then (if a = 0 then nan else if 0 < a then inf else ninf)
      else num (a / b)

/-- fpSub is subtraction, a + (-b). -/
def fpSub (a b : FP) : FP := fpAdd a (fpNeg b)

instance : Add FP := ⟨fpAdd⟩

instance : Mul FP := ⟨fpMul⟩

instance : Sub FP := ⟨fpSub⟩

instance : Div FP := ⟨fpDiv⟩

instance : Zero FP := ⟨num 0⟩

instance : One FP := ⟨num 1⟩

end FP

/-- PyError lists the failures the classification path can raise.  The
notebooks raise only Python built-ins: np.argmax of an empty sequence
raises valueError and sum(results) / len(results) with no results raises
zeroDivisionError.  The last two constructors are the typed errors named
by the specification (no notebook code raises them); they are present so
that statements about the specified error can be written down. -/
inductive PyError where
  | valueError : PyError
  | zeroDivisionError : PyError
  | emptyCandidateSetError : PyError
  | emptyTestSetError : PyError
deriving DecidableEq, Repr

/-- Except values are compared for equality when counting correct
classifications; this decides that comparison. -/
instance {ε β : Type} [DecidableEq ε] [DecidableEq β] : DecidableEq (Except ε β) :=
  fun a b =>
    match a, b with
    | Except.error x, Except.error y =>
        if h : x = y then isTrue (congrArg Except.error h)
        else isFalse (fun hc => h (Except.error.inj hc))
    | Except.error _, Except.ok _ => isFalse (fun hc => Except.noConfusion hc)
    | Except.ok _, Except.error _ => isFalse (fun hc => Except.noConfusion hc)
    | Except.ok x, Except.ok y =>
        if h : x = y then isTrue (congrArg Except.ok h)
        else isFalse (fun hc => h (Except.ok.inj hc))

/-- LabeledModel pairs a label with a model, as the namedtuple
LabeledModel(label, model) of the notebooks.  Labels are opaque
identifiers compared for equality. -/
structure LabeledModel (L : Type) (α : Type) where
  label : L
  model : GMM α
deriving DecidableEq

/-- argmaxV finds, among x followed by the given list, the first index
attaining the maximum, together with that maximum. -/
def argmaxV {β : Type} [LinearOrder β] (x : β) : List β → Nat × β
  | [] => (0, x)
  | y :: ys =>
      let p := argmaxV y ys
      if x < p.2 then (p.1 + 1, p.2) else (0, x)

/-- argmax models np.argmax on a one-dimensional array: the index of the
first occurrence of the maximum (np.argmax raises on an empty array; that
case is handled at the call sites). -/
def argmax {β : Type} [LinearOrder β] : List β → Nat
  | [] => 0
  | x :: xs => (argmaxV x xs).1

section Classifier

variable {L : Type} [DecidableEq L] {α : Type} [LinearOrderedField α]

/-- classify is the per-example body of test_models: build the labeled
results (label, model.score(features)), take np.argmax of the scores
alone, and answer the label at that index.  With no candidate models
np.argmax raises ValueError.  The scoring function (sklearn
GaussianMixture.score) is the explicit parameter scoreFn. -/
def classify (scoreFn : GMM α → Mat α → α) (labeled_models : List (LabeledModel L α))
    (X : Mat α) : Except PyError L :=
  match labeled_models with
  | [] => Except.error PyError.valueError
  | m :: ms =>
      let labeled_results := (m :: ms).map (fun lm => (lm.label, scoreFn lm.model X))
      let scores_only := labeled_results.map (fun lr => lr.2)
      let index := argmax scores_only
      Except.ok ((labeled_results.getD index (m.label, scoreFn m.model X)).1)

/-- test_models is the notebooks' evaluation loop: classify every test
example, record whether the predicted label equals the ground-truth
label, and return sum(results) / len(results); with an empty test set
Python raises ZeroDivisionError at that division. -/
def test_models (scoreFn : GMM α → Mat α → α) (test_examples : List (L × Mat α))
    (labeled_models : List (LabeledModel L α)) : Except PyError α := do
  let results ← test_examples.mapM (fun te => do
    let label_pred ← classify scoreFn labeled_models te.2
    pure (decide (label_pred = te.1)))
  if results.length = 0 then
    Except.error PyError.zeroDivisionError
  else
    pure (((results.countP id : Nat) : α) / (results.length : α))

end Classifier

section SpecSide

variable {α : Type} [Field α]

/-- isMat states that a matrix has the given shape: T rows of F entries. -/
def isMat (T F : Nat) (m : Mat α) : Prop := m.length = T ∧ ∀ row ∈ m, row.length = F

instance {T F : Nat} {m : Mat α} [DecidableEq α] : Decidable (isMat T F m) := by
  unfold isMat; infer_instance

/-- RespShape states that the responsibility oracle answers a T-by-K
matrix on X whenever the model has K mean rows of length F, as sklearn
predict_proba does (one row per sample, one column per component). -/
def RespShape (resp : GMM α → Mat α → Mat α) (X : Mat α) (T K F : Nat) : Prop :=
  ∀ g : GMM α, isMat K F g.means_ → isMat T K (resp g X)

/-- specSoftCount is the specification's soft occupation count of
component k: the sum over samples of the responsibility on k. -/
def specSoftCount (γ : Mat α) (k : Nat) : α :=
  (γ.map (fun row => row.getD k 0)).sum

/-- specMuTilde is the specification's speaker-only mean estimate of
component k at coordinate j: (1 / n_k) times the responsibility-weighted
sum of the samples. -/
def specMuTilde (γ X : Mat α) (k j : Nat) : α :=
  (1 / specSoftCount γ k) *
    (List.zipWith (fun grow xrow => grow.getD k 0 * xrow.getD j 0) γ X).sum

/-- specAlpha is the specification's adaptation coefficient
n_k / (n_k + r). -/
def specAlpha (γ : Mat α) (r : α) (k : Nat) : α :=
  specSoftCount γ k / (specSoftCount γ k + r)

/-- specStep is one MAP iteration written exactly as the specification
states it, component by component and coordinate by coordinate: the new
mean of component k is alpha_k times mu-tilde_k plus (1 - alpha_k) times
the mean the model held at the start of this same iteration; weights and
variances are untouched. -/
def specStep (resp : GMM α → Mat α → Mat α) (X : Mat α) (r : α) (g : GMM α) : GMM α :=
  let γ := resp g X
  { g with
      means_ := (List.range g.means_.length).map (fun k =>
        (List.range ((g.means_.getD k []).length)).map (fun j =>
          specAlpha γ r k * specMuTilde γ X k j
            + (1 - specAlpha γ r k) * ((g.means_.getD k []).getD j 0))) }

/-- em_weights is the weight part of the specification's M-step, modelled
from the spec: w_k = n_k / T with n_k the soft count of component k (EM
fitting itself is provided by sklearn and is not part of the repository
source; only this weight law is needed here). -/
def em_weights (γ : Mat α) : List α :=
  (List.range (γ.headD []).length).map (fun k => specSoftCount γ k / (γ.length : α))

end SpecSide

/-- respQ is a concrete responsibility oracle over exact rationals, used
to instantiate the general theorems on a small scenario: one sample, all
responsibility mass on the first of two components. -/
def respQ : GMM ℚ → Mat ℚ → Mat ℚ := fun _ _ => [[1, 0]]

/-- ubmQ is a concrete two-component, one-dimensional UBM over ℚ. -/
def ubmQ : GMM ℚ := ⟨[1/2, 1/2], [[0], [5]], [[1], [1]]⟩

/-- XQ is a concrete one-sample feature matrix over ℚ. -/
def XQ : Mat ℚ := [[3]]

/-- ubmFP is the same concrete UBM at the IEEE-special-value scalars. -/
def ubmFP : GMM FP :=
  ⟨[FP.num (1/2), FP.num (1/2)], [[FP.num 0], [FP.num 5]], [[FP.num 1], [FP.num 1]]⟩

/-- respFP is a responsibility oracle at the IEEE-special-value scalars in
which the second component receives an exactly zero responsibility on the
single sample, as predict_proba produces when the posterior of a distant
component underflows to 0.0. -/
def respFP : GMM FP → Mat FP → Mat FP := fun _ _ => [[FP.num 1, FP.num 0]]

/-- XFP is the one-sample feature matrix of the FP scenario. -/
def XFP : Mat FP := [[FP.num 3]]

section AdaptTheorems

variable {α : Type} [Field α]

theorem adaptStep_weights (resp : GMM α → Mat α → Mat α) (X : Mat α) (r : α)
    (g : GMM α) : (adaptStep resp X r g).weights_ = g.weights_ := rfl

theorem adaptStep_covariances (resp : GMM α → Mat α → Mat α) (X : Mat α) (r : α)
    (g : GMM α) : (adaptStep resp X r g).covariances_ = g.covariances_ := rfl

theorem map_adapt_weights (resp : GMM α → Mat α → Mat α) (ubm : GMM α) (X : Mat α)
    (max_iter : Nat) (r : α) :
    (map_adapt resp ubm X max_iter r).weights_ = ubm.weights_ := by
  induction max_iter with
  | zero => rfl
  | succ k ih =>
      rw [map_adapt, Function.iterate_succ_apply', adaptStep_weights]
      exact ih

theorem map_adapt_covariances (resp : GMM α → Mat α → Mat α) (ubm : GMM α) (X : Mat α)
    (max_iter : Nat) (r : α) :
    (map_adapt resp ubm X max_iter r).covariances_ = ubm.covariances_ := by
  induction max_iter with
  | zero => rfl
  | succ k ih =>
      rw [map_adapt, Function.iterate_succ_apply', adaptStep_covariances]
      exact ih

/-- C3: for every UBM and every input, the model returned by map_adapt has
component-for-component exactly the UBM's weights and exactly the UBM's
diagonal variances; only the means may differ.  The statement holds for
every responsibility oracle, every iteration count and every relevance
factor. -/
theorem map_adapt_freezes_weights_and_variances (resp : GMM α → Mat α → Mat α)
    (ubm : GMM α) (X : Mat α) (max_iter : Nat) (r : α) :
    (map_adapt resp ubm X max_iter r).weights_ = ubm.weights_ ∧
    (map_adapt resp ubm X max_iter r).covariances_ = ubm.covariances_ :=
  ⟨map_adapt_weights resp ubm X max_iter r, map_adapt_covariances resp ubm X max_iter r⟩

/-- C10: with max_iter = 0 the adaptation loop body is never entered and
map_adapt returns a pure copy of the prior: weights, means and variances
all exactly equal the UBM's. -/
theorem map_adapt_zero_iterations_is_copy (resp : GMM α → Mat α → Mat α)
    (ubm : GMM α) (X : Mat α) (r : α) :
    (map_adapt resp ubm X 0 r).weights_ = ubm.weights_ ∧
    (map_adapt resp ubm X 0 r).means_ = ubm.means_ ∧
    (map_adapt resp ubm X 0 r).covariances_ = ubm.covariances_ :=
  ⟨rfl, rfl, rfl⟩

end AdaptTheorems

theorem heapGet_setMeans_ne {α : Type} (h : Heap α) (ref u : Nat) (m : Mat α)
    (hu : u ≠ ref) : heapGet (setMeans h ref m) u = heapGet h u := by
  simp [heapGet, setMeans, List.getD_eq_getElem?_getD, List.getElem?_set_ne (Ne.symm hu)]

theorem heapGet_append_left {α : Type} (h : Heap α) (g : GMM α) (u : Nat)
    (hu : u < h.length) : heapGet (h ++ [g]) u = heapGet h u := by
  simp [heapGet, List.getD_eq_getElem?_getD, List.getElem?_append_left hu]

section HeapTheorems

variable {α : Type} [Field α]

theorem adaptStepS_snd (resp : GMM α → Mat α → Mat α) (X : Mat α) (r : α)
    (st : Heap α × Nat) : (adaptStepS resp X r st).2 = st.2 := rfl

theorem heapGet_adaptStepS_ne (resp : GMM α → Mat α → Mat α) (X : Mat α) (r : α)
    (st : Heap α × Nat) (u : Nat) (hu : u ≠ st.2) :
    heapGet (adaptStepS resp X r st).1 u = heapGet st.1 u :=
  heapGet_setMeans_ne st.1 st.2 u _ hu

theorem iterate_adaptStepS (resp : GMM α → Mat α → Mat α) (X : Mat α) (r : α)
    (m : Nat) (st : Heap α × Nat) (u : Nat) (hu : u ≠ st.2) :
    heapGet ((adaptStepS resp X r)^[m] st).1 u = heapGet st.1 u ∧
    ((adaptStepS resp X r)^[m] st).2 = st.2 := by
  induction m generalizing st with
  | zero => exact ⟨rfl, rfl⟩
  | succ k ih =>
      rw [Function.iterate_succ_apply]
      obtain ⟨ha, hb⟩ := ih (adaptStepS resp X r st) hu
      exact ⟨ha.trans (heapGet_adaptStepS_ne resp X r st u hu), hb⟩

/-- C2: map_adapt starts from a deep copy of the UBM object and mutates
only the copy, so after the call the object the UBM reference points to
holds exactly the parameters it held before, and the returned reference is
a new object distinct from the UBM.  Stated on the heap model, where
distinct references are distinct Python objects. -/
theorem map_adapt_does_not_mutate_ubm (resp : GMM α → Mat α → Mat α) (h : Heap α)
    (ubmRef : Nat) (X : Mat α) (max_iter : Nat) (r : α)
    (href : ubmRef < h.length) (_hX : X ≠ []) :
    heapGet (map_adaptS resp h ubmRef X max_iter r).1 ubmRef = heapGet h ubmRef ∧
    (map_adaptS resp h ubmRef X max_iter r).2 ≠ ubmRef := by
  have hne : ubmRef ≠ (deepcopy h ubmRef).2 := by
    simp only [deepcopy]
    omega
  obtain ⟨ha, hb⟩ := iterate_adaptStepS resp X r max_iter (deepcopy h ubmRef) ubmRef hne
  rw [map_adaptS]
  refine ⟨ha.trans ?_, ?_⟩
  · exact heapGet_append_left h (heapGet h ubmRef) ubmRef href
  · rw [hb]
    simp only [deepcopy]
    omega

/-- C2 witness: the hypotheses and the conclusion at a concrete heap
holding one UBM object, adapted for two iterations. -/
theorem map_adapt_does_not_mutate_ubm_w :
    0 < [ubmQ].length ∧ XQ ≠ [] ∧
    (heapGet (map_adaptS respQ [ubmQ] 0 XQ 2 16).1 0 = heapGet [ubmQ] 0 ∧
      (map_adaptS respQ [ubmQ] 0 XQ 2 16).2 ≠ 0) :=
  ⟨by decide, by decide,
    map_adapt_does_not_mutate_ubm respQ [ubmQ] 0 XQ 2 16 (by decide) (by decide)⟩

end HeapTheorems

section WeightSum

variable {α : Type} [LinearOrderedField α]

theorem sum_range_getD (l : List α) :
    ((List.range l.length).map (fun k => l.getD k 0)).sum = l.sum := by
  induction l with
  | nil => simp
  | cons x xs ih =>
      rw [List.length_cons, List.range_succ_eq_map, List.map_cons, List.getD_cons_zero,
        ← List.comp_map, List.sum_cons, List.sum_cons]
      exact congrArg (fun s => x + s) ih

theorem sum_specSoftCount (γ : Mat α) (K : Nat) :
    ((List.range K).map (fun k => specSoftCount γ k)).sum
      = (γ.map (fun row => ((List.range K).map (fun k => row.getD k 0)).sum)).sum := by
  induction γ with
  | nil => simp [specSoftCount]
  | cons row rest ih =>
      have hsplit : (fun k => specSoftCount (row :: rest) k)
          = fun k => row.getD k 0 + specSoftCount rest k := by
        funext k
        simp [specSoftCount]
      rw [hsplit, List.sum_map_add, ih, List.map_cons, List.sum_cons]

theorem sum_map_div {β : Type} (l : List β) (f : β → α) (c : α) :
    (l.map (fun x => f x / c)).sum = (l.map f).sum / c := by
  simp only [div_eq_mul_inv]
  rw [List.sum_map_mul_right]

theorem em_weights_sum_one (γ : Mat α) (K : Nat) (hne : γ ≠ [])
    (hrows : ∀ row ∈ γ, row.length = K) (hsum : ∀ row ∈ γ, row.sum = 1) :
    (em_weights γ).sum = 1 := by
  obtain ⟨row0, rest, rfl⟩ : ∃ r0 t, γ = r0 :: t := by
    cases γ with
    | nil => exact absurd rfl hne
    | cons a l => exact ⟨a, l, rfl⟩
  have hhead : ((row0 :: rest).headD []).length = K :=
    hrows row0 (List.mem_cons_self row0 rest)
  rw [em_weights, hhead, sum_map_div, sum_specSoftCount]
  have hone : (row0 :: rest).map
      (fun row => ((List.range K).map (fun k => row.getD k 0)).sum)
      = (row0 :: rest).map (fun _ => (1 : α)) := by
    refine List.map_congr_left (fun row hrow => ?_)
    rw [← hrows row hrow, sum_range_getD]
    exact hsum row hrow
  rw [hone]
  have hlen : ((row0 :: rest).map (fun _ => (1 : α))).sum = ((row0 :: rest).length : α) := by
    rw [show (fun _ : List α => (1 : α)) = Function.const (List α) (1 : α) from rfl,
      List.map_const, List.sum_replicate, nsmul_eq_mul, mul_one]
  rw [hlen, div_self]
  exact Nat.cast_ne_zero.mpr (List.length_pos.mpr (List.cons_ne_nil row0 rest)).ne'

/-- C9: component weights sum to 1 for the models the core produces: the
model map_adapt returns from a UBM whose weights sum to 1 (adaptation
never touches the weights), and a model whose weights come from the
specified EM M-step weight law w_k = n_k / T with normalized
responsibilities (the EM fit itself lives in sklearn, so that law is
modelled from the spec). -/
theorem adapted_and_fitted_weights_sum_one :
    (∀ (resp : GMM α → Mat α → Mat α) (ubm : GMM α) (X : Mat α) (max_iter : Nat) (r : α),
        ubm.weights_.sum = 1 → (map_adapt resp ubm X max_iter r).weights_.sum = 1) ∧
    (∀ (γ : Mat α) (K : Nat), γ ≠ [] → (∀ row ∈ γ, row.length = K) →
        (∀ row ∈ γ, row.sum = 1) → (em_weights γ).sum = 1) := by
  constructor
  · intro resp ubm X max_iter r hsum
    rw [map_adapt_weights]
    exact hsum
  · exact fun γ K => em_weights_sum_one γ K

/-- C9 witness: the weight sum after three adaptation iterations of the
concrete rational UBM, and the EM weight law on a concrete normalized
responsibility matrix. -/
theorem adapted_and_fitted_weights_sum_one_w :
    ubmQ.weights_.sum = 1 ∧ (map_adapt respQ ubmQ XQ 3 16).weights_.sum = 1 ∧
    (em_weights [[(1 : ℚ), 0]]).sum = 1 :=
  ⟨by norm_num [ubmQ],
    (adapted_and_fitted_weights_sum_one (α := ℚ)).1 respQ ubmQ XQ 3 16 (by norm_num [ubmQ]),
    (adapted_and_fitted_weights_sum_one (α := ℚ)).2 [[1, 0]] 2 (by simp)
      (by
        intro row hrow
        rw [List.mem_singleton] at hrow
        subst hrow
        rfl)
      (by
        intro row hrow
        rw [List.mem_singleton] at hrow
        subst hrow
        norm_num)⟩

end WeightSum

section ArgmaxLemmas

variable {β : Type} [LinearOrder β]

theorem argmaxV_lt_length (x : β) (l : List β) : (argmaxV x l).1 < (x :: l).length := by
  induction l generalizing x with
  | nil => simp [argmaxV]
  | cons y ys ih =>
      simp only [argmaxV]
      split
      · exact Nat.succ_lt_succ (ih y)
      · exact Nat.succ_pos _

theorem argmaxV_get (x : β) (l : List β) :
    (x :: l).get ⟨(argmaxV x l).1, argmaxV_lt_length x l⟩ = (argmaxV x l).2 := by
  induction l generalizing x with
  | nil => rfl
  | cons y ys ih =>
      by_cases hx : x < (argmaxV y ys).2
      · have h1 : argmaxV x (y :: ys) = ((argmaxV y ys).1 + 1, (argmaxV y ys).2) := by
          simp [argmaxV, hx]
        rw [List.get_eq_getElem]
        simp only [h1, List.getElem_cons_succ]
        exact ih y
      · have h1 : argmaxV x (y :: ys) = (0, x) := by
          simp [argmaxV, hx]
        simp [h1]

theorem argmaxV_le (x : β) (l : List β) (j : Nat) (hj : j < (x :: l).length) :
    (x :: l)[j] ≤ (argmaxV x l).2 := by
  induction l generalizing x j with
  | nil =>
      cases j with
      | zero => exact le_refl x
      | succ k =>
          simp only [List.length_cons, List.length_nil] at hj
          omega
  | cons y ys ih =>
      by_cases hx : x < (argmaxV y ys).2
      · have h1 : argmaxV x (y :: ys) = ((argmaxV y ys).1 + 1, (argmaxV y ys).2) := by
          simp [argmaxV, hx]
        rw [h1]
        cases j with
        | zero => exact le_of_lt hx
        | succ k =>
            rw [List.getElem_cons_succ]
            exact ih y k (Nat.lt_of_succ_lt_succ hj)
      · have h1 : argmaxV x (y :: ys) = (0, x) := by
          simp [argmaxV, hx]
        rw [h1]
        cases j with
        | zero => exact le_refl x
        | succ k =>
            rw [List.getElem_cons_succ]
            exact le_trans (ih y k (Nat.lt_of_succ_lt_succ hj)) (not_lt.mp hx)

theorem argmaxV_first (x : β) (l : List β) (j : Nat) (hfst : j < (argmaxV x l).1)
    (hj : j < (x :: l).length) : (x :: l)[j] < (argmaxV x l).2 := by
  induction l generalizing x j with
  | nil => simp [argmaxV] at hfst
  | cons y ys ih =>
      by_cases hx : x < (argmaxV y ys).2
      · have h1 : argmaxV x (y :: ys) = ((argmaxV y ys).1 + 1, (argmaxV y ys).2) := by
          simp [argmaxV, hx]
        rw [h1]
        rw [h1] at hfst
        cases j with
        | zero => exact hx
        | succ k =>
            rw [List.getElem_cons_succ]
            exact ih y k (Nat.lt_of_succ_lt_succ hfst) (Nat.lt_of_succ_lt_succ hj)
      · have h1 : argmaxV x (y :: ys) = (0, x) := by
          simp [argmaxV, hx]
        rw [h1] at hfst
        exact absurd hfst (Nat.not_lt_zero j)

end ArgmaxLemmas

section ClassifierTheorems

variable {L : Type} {α : Type} [LinearOrderedField α]

/-- C5: on a non-empty candidate list, classify returns the label of the
candidate whose score is maximal, and among candidates attaining the
maximal score it picks the earliest in the list (the stable argmax of
np.argmax): every candidate scores no higher, and every strictly earlier
candidate scores strictly lower. -/
theorem classify_returns_first_max_label (scoreFn : GMM α → Mat α → α)
    (m : LabeledModel L α) (ms : List (LabeledModel L α)) (X : Mat α) :
    ∃ i : Fin (m :: ms).length,
      classify scoreFn (m :: ms) X = Except.ok (((m :: ms).get i).label) ∧
      (∀ j : Fin (m :: ms).length,
        scoreFn ((m :: ms).get j).model X ≤ scoreFn ((m :: ms).get i).model X) ∧
      (∀ j : Fin (m :: ms).length, (j : Nat) < (i : Nat) →
        scoreFn ((m :: ms).get j).model X < scoreFn ((m :: ms).get i).model X) := by
  have hso : ((m :: ms).map (fun lm => (lm.label, scoreFn lm.model X))).map (fun lr => lr.2)
      = (m :: ms).map (fun lm => scoreFn lm.model X) := by
    rw [List.map_map]
    rfl
  have hlen : (scoreFn m.model X :: ms.map (fun lm => scoreFn lm.model X)).length
      = (m :: ms).length := by
    simp
  have hbound : argmax ((m :: ms).map (fun lm => scoreFn lm.model X)) < (m :: ms).length := by
    rw [← hlen]
    exact argmaxV_lt_length _ _
  have e2 : (scoreFn m.model X :: ms.map (fun lm => scoreFn lm.model X)).get
      ⟨(argmaxV (scoreFn m.model X) (ms.map (fun lm => scoreFn lm.model X))).1,
        argmaxV_lt_length _ _⟩
      = scoreFn ((m :: ms).get ⟨argmax ((m :: ms).map (fun lm => scoreFn lm.model X)),
          hbound⟩).model X :=
    List.getElem_map (fun lm => scoreFn lm.model X) (l := m :: ms)
  refine ⟨⟨argmax ((m :: ms).map (fun lm => scoreFn lm.model X)), hbound⟩, ?_, ?_, ?_⟩
  · show Except.ok ((((m :: ms).map (fun lm => (lm.label, scoreFn lm.model X))).getD
        (argmax (((m :: ms).map (fun lm => (lm.label, scoreFn lm.model X))).map
          (fun lr => lr.2))) (m.label, scoreFn m.model X)).1) = _
    rw [hso]
    have hlr : argmax ((m :: ms).map (fun lm => scoreFn lm.model X))
        < ((m :: ms).map (fun lm => (lm.label, scoreFn lm.model X))).length := by
      simpa using hbound
    rw [List.getD_eq_getElem _ _ hlr, List.getElem_map]
    rfl
  · intro j
    have hjs : (j : Nat) < (scoreFn m.model X :: ms.map (fun lm => scoreFn lm.model X)).length := by
      rw [hlen]
      exact j.2
    have hle := argmaxV_le (scoreFn m.model X) (ms.map (fun lm => scoreFn lm.model X))
      (j : Nat) hjs
    rw [← argmaxV_get (scoreFn m.model X) (ms.map (fun lm => scoreFn lm.model X))] at hle
    have e1 : (scoreFn m.model X :: ms.map (fun lm => scoreFn lm.model X))[(j : Nat)]
        = scoreFn ((m :: ms).get j).model X :=
      List.getElem_map (fun lm => scoreFn lm.model X) (l := m :: ms)
    rw [e1, e2] at hle
    exact hle
  · intro j hj
    have hjs : (j : Nat) < (scoreFn m.model X :: ms.map (fun lm => scoreFn lm.model X)).length := by
      rw [hlen]
      exact j.2
    have hj2 : (j : Nat) < (argmaxV (scoreFn m.model X)
        (ms.map (fun lm => scoreFn lm.model X))).1 := hj
    have hlt := argmaxV_first (scoreFn m.model X) (ms.map (fun lm => scoreFn lm.model X))
      (j : Nat) hj2 hjs
    rw [← argmaxV_get (scoreFn m.model X) (ms.map (fun lm => scoreFn lm.model X))] at hlt
    have e1 : (scoreFn m.model X :: ms.map (fun lm => scoreFn lm.model X))[(j : Nat)]
        = scoreFn ((m :: ms).get j).model X :=
      List.getElem_map (fun lm => scoreFn lm.model X) (l := m :: ms)
    rw [e1, e2] at hlt
    exact hlt

end ClassifierTheorems

section EvaluationTheorems

variable {L : Type} [DecidableEq L] {α : Type} [LinearOrderedField α]

theorem except_bind_ok {ε β γ : Type} (a : β) (f : β → Except ε γ) :
    (Except.ok a >>= f) = f a := rfl

theorem mapM_eq_map_of_ok {σ β : Type} {ε : Type} (l : List σ) (f : σ → Except ε β)
    (g : σ → β) (h : ∀ a ∈ l, f a = Except.ok (g a)) :
    l.mapM f = Except.ok (l.map g) := by
  induction l with
  | nil => rfl
  | cons a t ih =>
      rw [List.mapM_cons, h a (List.mem_cons_self a t),
        ih (fun b hb => h b (List.mem_cons_of_mem a hb))]
      rfl

theorem classify_point_ok (scoreFn : GMM α → Mat α → α) (m : LabeledModel L α)
    (ms : List (LabeledModel L α)) (e : L × Mat α) :
    (do
      let label_pred ← classify scoreFn (m :: ms) e.2
      pure (decide (label_pred = e.1)) : Except PyError Bool)
      = Except.ok (decide (classify scoreFn (m :: ms) e.2 = Except.ok e.1)) := by
  obtain ⟨l, hl⟩ : ∃ l, classify scoreFn (m :: ms) e.2 = Except.ok l := ⟨_, rfl⟩
  rw [hl]
  show Except.ok (decide (l = e.1)) = Except.ok (decide (Except.ok l = Except.ok e.1))
  congr 1
  exact decide_eq_decide.mpr ⟨fun h => congrArg Except.ok h, fun h => Except.ok.inj h⟩

/-- C7: on a non-empty test set and a non-empty candidate list, test_models
returns the arithmetic mean of the boolean correctness sequence: the number
of test entries whose classified label equals their ground-truth label,
divided by the total number of entries, and that value lies in the unit
interval. -/
theorem test_models_returns_mean_accuracy (scoreFn : GMM α → Mat α → α)
    (te : L × Mat α) (ts : List (L × Mat α)) (m : LabeledModel L α)
    (ms : List (LabeledModel L α)) :
    ∃ q : α,
      test_models scoreFn (te :: ts) (m :: ms) = Except.ok q ∧
      q = (((te :: ts).countP
              (fun e => decide (classify scoreFn (m :: ms) e.2 = Except.ok e.1)) : Nat) : α)
            / (((te :: ts).length : Nat) : α) ∧
      0 ≤ q ∧ q ≤ 1 := by
  have hmap : (te :: ts).mapM (fun e => do
      let label_pred ← classify scoreFn (m :: ms) e.2
      pure (decide (label_pred = e.1)))
      = Except.ok ((te :: ts).map
          (fun e => decide (classify scoreFn (m :: ms) e.2 = Except.ok e.1))) :=
    mapM_eq_map_of_ok _ _ _ (fun e _ => classify_point_ok scoreFn m ms e)
  have hne : ¬ (((te :: ts).map
      (fun e => decide (classify scoreFn (m :: ms) e.2 = Except.ok e.1))).length = 0) := by
    simp
  have hrun : test_models scoreFn (te :: ts) (m :: ms)
      = Except.ok (((((te :: ts).map
            (fun e => decide (classify scoreFn (m :: ms) e.2 = Except.ok e.1))).countP
              id : Nat) : α)
          / ((((te :: ts).map
            (fun e => decide (classify scoreFn (m :: ms) e.2 = Except.ok e.1))).length
              : Nat) : α)) := by
    simp only [test_models]
    rw [hmap, except_bind_ok]
    rw [if_neg hne]
    rfl
  have hcount : (((te :: ts).map
        (fun e => decide (classify scoreFn (m :: ms) e.2 = Except.ok e.1))).countP id)
      = (te :: ts).countP
          (fun e => decide (classify scoreFn (m :: ms) e.2 = Except.ok e.1)) := by
    rw [List.countP_map]
    rfl
  have hlen : (((te :: ts).map
        (fun e => decide (classify scoreFn (m :: ms) e.2 = Except.ok e.1))).length)
      = (te :: ts).length := List.length_map _ _
  refine ⟨_, hrun, ?_, ?_, ?_⟩
  · rw [hcount, hlen]
  · exact div_nonneg (Nat.cast_nonneg _) (Nat.cast_nonneg _)
  · rw [div_le_one]
    · rw [hcount, hlen]
      exact_mod_cast List.countP_le_length _
    · rw [hlen]
      exact_mod_cast Nat.succ_pos ts.length

/-- C6 counterexample: on an empty candidate list classify fails with the
Python built-in ValueError that np.argmax raises, not with the typed
EmptyCandidateSetError the claim names, and on an empty test set
test_models fails with ZeroDivisionError, not EmptyTestSetError. -/
theorem empty_inputs_raise_builtins_cex :
    classify (fun _ _ => (0 : ℚ)) ([] : List (LabeledModel Nat ℚ)) []
      = Except.error PyError.valueError ∧
    test_models (fun _ _ => (0 : ℚ)) ([] : List (Nat × Mat ℚ))
        ([] : List (LabeledModel Nat ℚ))
      = Except.error PyError.zeroDivisionError ∧
    PyError.valueError ≠ PyError.emptyCandidateSetError ∧
    PyError.zeroDivisionError ≠ PyError.emptyTestSetError :=
  ⟨rfl, rfl, by decide, by decide⟩

/-- C6 (amended): each operation on an empty required input fails with an
error rather than silently producing a value: classify on an empty
candidate list fails (np.argmax of an empty sequence raises ValueError),
and test_models on an empty test set fails (sum(results) / len(results)
raises ZeroDivisionError); the errors are these Python built-ins, not the
typed errors the specification names. -/
theorem empty_inputs_fail (scoreFn : GMM α → Mat α → α) (X : Mat α)
    (labeled_models : List (LabeledModel L α)) :
    classify scoreFn ([] : List (LabeledModel L α)) X = Except.error PyError.valueError ∧
    test_models scoreFn ([] : List (L × Mat α)) labeled_models
      = Except.error PyError.zeroDivisionError :=
  ⟨rfl, rfl⟩

end EvaluationTheorems

section RelevanceLimits

open Filter Topology

theorem alphaOf_tendsto_one (n : ℝ) (hn : 0 < n) :
    Tendsto (fun r : ℝ => alphaOf n r) (nhds 0) (nhds 1) := by
  have h1 : Tendsto (fun r : ℝ => n + r) (nhds 0) (nhds n) := by
    have := (tendsto_const_nhds (x := n) (f := nhds (0 : ℝ))).add tendsto_id
    simpa using this
  have h2 : Tendsto (fun r : ℝ => n / (n + r)) (nhds 0) (nhds (n / n)) :=
    tendsto_const_nhds.div h1 hn.ne'
  rw [div_self hn.ne'] at h2
  exact h2

theorem alphaOf_tendsto_zero (n : ℝ) :
    Tendsto (fun r : ℝ => alphaOf n r) atTop (nhds 0) := by
  have h1 : Tendsto (fun r : ℝ => n + r) atTop atTop :=
    tendsto_atTop_add_const_left _ n tendsto_id
  have h2 : Tendsto (fun r : ℝ => (n + r)⁻¹) atTop (nhds 0) := h1.inv_tendsto_atTop
  have h3 : Tendsto (fun r : ℝ => n * (n + r)⁻¹) atTop (nhds (n * 0)) := h2.const_mul n
  rw [mul_zero] at h3
  exact h3

/-- C8: for a component with positive soft count n, the mean produced by
one map_adapt update — the blend with coefficient alphaOf n r of the
speaker-only estimate against the prior mean — tends to the speaker-only
estimate as the relevance factor r tends to 0, and tends to the prior
(UBM) mean as r tends to infinity. -/
theorem adapted_mean_relevance_limits (n x mu : ℝ) (hn : 0 < n) :
    Tendsto (fun r : ℝ => blendScalar (alphaOf n r) x mu)
      (nhdsWithin 0 (Set.Ioi 0)) (nhds x) ∧
    Tendsto (fun r : ℝ => blendScalar (alphaOf n r) x mu) atTop (nhds mu) := by
  constructor
  · have h1 := alphaOf_tendsto_one n hn
    have h2 : Tendsto (fun r : ℝ => alphaOf n r * x + (1 - alphaOf n r) * mu)
        (nhds 0) (nhds (1 * x + (1 - 1) * mu)) :=
      (h1.mul_const x).add ((tendsto_const_nhds.sub h1).mul_const mu)
    have h3 : (1 : ℝ) * x + (1 - 1) * mu = x := by ring
    rw [h3] at h2
    exact h2.mono_left nhdsWithin_le_nhds
  · have h1 := alphaOf_tendsto_zero n
    have h2 : Tendsto (fun r : ℝ => alphaOf n r * x + (1 - alphaOf n r) * mu)
        atTop (nhds (0 * x + (1 - 0) * mu)) :=
      (h1.mul_const x).add ((tendsto_const_nhds.sub h1).mul_const mu)
    have h3 : (0 : ℝ) * x + (1 - 0) * mu = mu := by ring
    rw [h3] at h2
    exact h2

/-- C8 witness: the hypothesis and both limits at the concrete component
with soft count 1, speaker estimate 2 and prior mean 3. -/
theorem adapted_mean_relevance_limits_w :
    (0 : ℝ) < 1 ∧
    (Tendsto (fun r : ℝ => blendScalar (alphaOf 1 r) 2 3)
        (nhdsWithin 0 (Set.Ioi 0)) (nhds 2) ∧
      Tendsto (fun r : ℝ => blendScalar (alphaOf 1 r) 2 3) atTop (nhds 3)) :=
  ⟨by norm_num, adapted_mean_relevance_limits 1 2 3 (by norm_num)⟩

end RelevanceLimits

section ZeroCountNaN

theorem fp_add_def (a b : FP) : a + b = FP.fpAdd a b := rfl

theorem fp_mul_def (a b : FP) : a * b = FP.fpMul a b := rfl

theorem fp_sub_def (a b : FP) : a - b = FP.fpSub a b := rfl

theorem fp_div_def (a b : FP) : a / b = FP.fpDiv a b := rfl

theorem fp_zero_def : (0 : FP) = FP.num 0 := rfl

theorem fp_one_def : (1 : FP) = FP.num 1 := rfl

/-- C1 evidence: one map_adapt iteration followed at the IEEE
special-value scalars on a two-component model in which the second
component has soft count exactly 0 (its responsibilities underflowed).
The unguarded division computes 1/0 = inf, then inf * 0 = NaN in the
speaker estimate, and alpha * NaN + (1 - alpha) * mean = NaN: the second
component's adapted mean is NaN, not its unchanged prior mean 5, so a zero
count does propagate an undefined value into the adapted means. -/
theorem map_adapt_zero_count_gives_nan :
    (map_adapt respFP ubmFP XFP 1 (FP.num 16)).means_
      = [[FP.num (3 / 17)], [FP.nan]] ∧
    (map_adapt respFP ubmFP XFP 1 (FP.num 16)).means_ ≠ ubmFP.means_ := by
  have h : (map_adapt respFP ubmFP XFP 1 (FP.num 16)).means_
      = [[FP.num (3 / 17)], [FP.nan]] := by
    norm_num [map_adapt, Function.iterate_one, adaptStep, respFP, ubmFP, XFP, colSums,
      transposeM, matMul, dot, scaleRows, alphaOf, blendScalar, blendRows, zipWith3,
      List.range_succ, fp_add_def, fp_mul_def, fp_sub_def, fp_div_def, fp_zero_def,
      fp_one_def, FP.fpAdd, FP.fpMul, FP.fpSub, FP.fpNeg, FP.fpDiv]
  refine ⟨h, ?_⟩
  rw [h]
  simp [ubmFP]

end ZeroCountNaN

section RefinementLemmas

theorem zipWith3_length {β γ δ ε : Type} (f : β → γ → δ → ε) (a : List β) (b : List γ)
    (c : List δ) :
    (zipWith3 f a b c).length = min a.length (min b.length c.length) := by
  induction a generalizing b c with
  | nil => simp [zipWith3]
  | cons x xs ih =>
      cases b with
      | nil => simp [zipWith3]
      | cons y ys =>
          cases c with
          | nil => simp [zipWith3]
          | cons z zs =>
              simp only [zipWith3, List.length_cons, ih]
              omega

theorem zipWith3_getD {β γ δ ε : Type} (f : β → γ → δ → ε) (a : List β) (b : List γ)
    (c : List δ) (i : Nat) (db : β) (dc : γ) (dd : δ) (de : ε)
    (h1 : i < a.length) (h2 : i < b.length) (h3 : i < c.length) :
    (zipWith3 f a b c).getD i de = f (a.getD i db) (b.getD i dc) (c.getD i dd) := by
  induction a generalizing b c i with
  | nil => simp at h1
  | cons x xs ih =>
      cases b with
      | nil => simp at h2
      | cons y ys =>
          cases c with
          | nil => simp at h3
          | cons z zs =>
              cases i with
              | zero => rfl
              | succ n =>
                  show (zipWith3 f xs ys zs).getD n de = _
                  rw [List.getD_cons_succ, List.getD_cons_succ, List.getD_cons_succ]
                  exact ih ys zs n (Nat.lt_of_succ_lt_succ h1) (Nat.lt_of_succ_lt_succ h2)
                    (Nat.lt_of_succ_lt_succ h3)

variable {α : Type} [Field α]

theorem colSums_length (p : Mat α) (K : Nat) (hrows : ∀ row ∈ p, row.length = K)
    (hne : p ≠ []) : (colSums p).length = K := by
  induction p with
  | nil => exact absurd rfl hne
  | cons row rest ih =>
      cases rest with
      | nil => exact hrows row (List.mem_cons_self row [])
      | cons r2 t =>
          show (List.zipWith (· + ·) row (colSums (r2 :: t))).length = K
          rw [List.length_zipWith,
            ih (fun q hq => hrows q (List.mem_cons_of_mem _ hq)) (List.cons_ne_nil r2 t),
            hrows row (List.mem_cons_self row _)]
          exact min_self K

theorem colSums_getD (p : Mat α) (K : Nat) (hrows : ∀ row ∈ p, row.length = K)
    (hne : p ≠ []) (k : Nat) (hk : k < K) :
    (colSums p).getD k 0 = specSoftCount p k := by
  induction p with
  | nil => exact absurd rfl hne
  | cons row rest ih =>
      cases rest with
      | nil =>
          show row.getD k 0 = specSoftCount [row] k
          simp [specSoftCount]
      | cons r2 t =>
          have hrow : row.length = K := hrows row (List.mem_cons_self row _)
          have htail : ∀ q ∈ r2 :: t, q.length = K :=
            fun q hq => hrows q (List.mem_cons_of_mem _ hq)
          have hcs : (colSums (r2 :: t)).length = K :=
            colSums_length (r2 :: t) K htail (List.cons_ne_nil r2 t)
          have hzlen : (List.zipWith (· + ·) row (colSums (r2 :: t))).length = K := by
            rw [List.length_zipWith, hrow, hcs]
            exact min_self K
          show (List.zipWith (· + ·) row (colSums (r2 :: t))).getD k 0 = _
          rw [List.getD_eq_getElem _ _ (by rw [hzlen]; exact hk), List.getElem_zipWith,
            ← List.getD_eq_getElem row 0 (by rw [hrow]; exact hk),
            ← List.getD_eq_getElem (colSums (r2 :: t)) 0 (by rw [hcs]; exact hk),
            ih htail (List.cons_ne_nil r2 t)]
          simp [specSoftCount]

theorem transposeM_length (p : Mat α) (K : Nat) (hrows : ∀ row ∈ p, row.length = K)
    (hne : p ≠ []) : (transposeM p).length = K := by
  obtain ⟨row0, rest, rfl⟩ : ∃ r0 t, p = r0 :: t := by
    cases p with
    | nil => exact absurd rfl hne
    | cons a l => exact ⟨a, l, rfl⟩
  show ((List.range ((row0 :: rest).headD []).length).map _).length = K
  rw [List.length_map, List.length_range]
  exact hrows row0 (List.mem_cons_self row0 rest)

theorem transposeM_getD (p : Mat α) (K : Nat) (hrows : ∀ row ∈ p, row.length = K)
    (hne : p ≠ []) (k : Nat) (hk : k < K) :
    (transposeM p).getD k [] = p.map (fun row => row.getD k 0) := by
  have hlen : (transposeM p).length = K := transposeM_length p K hrows hne
  rw [List.getD_eq_getElem _ _ (by rw [hlen]; exact hk)]
  simp only [transposeM, List.getElem_map, List.getElem_range]

theorem ext_getD {β : Type} (l1 l2 : List β) (d : β) (hlen : l1.length = l2.length)
    (h : ∀ i, i < l1.length → l1.getD i d = l2.getD i d) : l1 = l2 := by
  apply List.ext_getElem hlen
  intro n h1 h2
  rw [← List.getD_eq_getElem l1 d h1, ← List.getD_eq_getElem l2 d h2]
  exact h n h1

theorem map_getD {β γ : Type} (f : β → γ) (l : List β) (k : Nat) (db : β) (dc : γ)
    (hk : k < l.length) : (l.map f).getD k dc = f (l.getD k db) := by
  rw [List.getD_eq_getElem _ _ (by rw [List.length_map]; exact hk), List.getElem_map,
    List.getD_eq_getElem _ _ hk]

theorem map_range_getD {γ : Type} (n : Nat) (f : Nat → γ) (k : Nat) (dc : γ)
    (hk : k < n) : ((List.range n).map f).getD k dc = f k := by
  rw [List.getD_eq_getElem _ _ (by rw [List.length_map, List.length_range]; exact hk),
    List.getElem_map, List.getElem_range]

theorem zipWith_getD {β γ δ : Type} (f : β → γ → δ) (a : List β) (b : List γ) (i : Nat)
    (da : β) (db : γ) (dd : δ) (h1 : i < a.length) (h2 : i < b.length) :
    (List.zipWith f a b).getD i dd = f (a.getD i da) (b.getD i db) := by
  have hz : i < (List.zipWith f a b).length := by
    rw [List.length_zipWith]
    omega
  rw [List.getD_eq_getElem _ _ hz, List.getElem_zipWith,
    ← List.getD_eq_getElem a da h1, ← List.getD_eq_getElem b db h2]

theorem adaptStep_means_eq (resp : GMM α → Mat α → Mat α) (X : Mat α) (r : α)
    (g : GMM α) (T K F : Nat) (hT : 0 < T) (hX : isMat T F X)
    (hγ : isMat T K (resp g X)) (hμ : isMat K F g.means_) :
    (adaptStep resp X r g).means_ = (specStep resp X r g).means_ := by
  obtain ⟨hXlen, hXrows⟩ := hX
  obtain ⟨hγlen, hγrows⟩ := hγ
  obtain ⟨hμlen, hμrows⟩ := hμ
  have hγne : resp g X ≠ [] := by
    intro h
    rw [h] at hγlen
    simp only [List.length_nil] at hγlen
    omega
  have hXne : X ≠ [] := by
    intro h
    rw [h] at hXlen
    simp only [List.length_nil] at hXlen
    omega
  have hn_len : (colSums (resp g X)).length = K := colSums_length _ K hγrows hγne
  have hTγ_len : (transposeM (resp g X)).length = K := transposeM_length _ K hγrows hγne
  have hTX_len : (transposeM X).length = F := transposeM_length X F hXrows hXne
  have hM_len : (matMul (transposeM (resp g X)) X).length = K := by
    rw [matMul, List.length_map]
    exact hTγ_len
  have hs_len : ((colSums (resp g X)).map (fun v => 1 / v)).length = K := by
    rw [List.length_map]
    exact hn_len
  have halpha_len : ((colSums (resp g X)).map (fun v => alphaOf v r)).length = K := by
    rw [List.length_map]
    exact hn_len
  have hXt_len : (scaleRows ((colSums (resp g X)).map (fun v => 1 / v))
      (matMul (transposeM (resp g X)) X)).length = K := by
    rw [scaleRows, List.length_zipWith, hs_len, hM_len]
    exact min_self K
  show blendRows ((colSums (resp g X)).map (fun v => alphaOf v r))
      (scaleRows ((colSums (resp g X)).map (fun v => 1 / v))
        (matMul (transposeM (resp g X)) X)) g.means_
    = (List.range g.means_.length).map (fun k =>
        (List.range ((g.means_.getD k []).length)).map (fun j =>
          specAlpha (resp g X) r k * specMuTilde (resp g X) X k j
            + (1 - specAlpha (resp g X) r k) * ((g.means_.getD k []).getD j 0)))
  have hblend_len : (blendRows ((colSums (resp g X)).map (fun v => alphaOf v r))
      (scaleRows ((colSums (resp g X)).map (fun v => 1 / v))
        (matMul (transposeM (resp g X)) X)) g.means_).length = K := by
    rw [blendRows, zipWith3_length, halpha_len, hXt_len, hμlen]
    omega
  apply ext_getD _ _ []
  · rw [hblend_len, List.length_map, List.length_range, hμlen]
  · intro k hklen
    have hkK : k < K := by
      rw [hblend_len] at hklen
      exact hklen
    have hμk_mem : g.means_.getD k [] ∈ g.means_ := by
      rw [List.getD_eq_getElem _ _ (by rw [hμlen]; exact hkK)]
      exact List.getElem_mem _
    have hμk_len : (g.means_.getD k []).length = F := hμrows _ hμk_mem
    -- the spec-side row at k
    rw [map_range_getD g.means_.length _ k [] (by rw [hμlen]; exact hkK)]
    -- the code-side row at k
    rw [blendRows, zipWith3_getD _ _ _ _ k 0 [] [] []
      (by rw [halpha_len]; exact hkK) (by rw [hXt_len]; exact hkK)
      (by rw [hμlen]; exact hkK)]
    -- code row is a zipWith over the X_tilde row and the mean row
    have hXtrow : (scaleRows ((colSums (resp g X)).map (fun v => 1 / v))
        (matMul (transposeM (resp g X)) X)).getD k []
        = ((matMul (transposeM (resp g X)) X).getD k []).map
            (fun x => (((colSums (resp g X)).map (fun v => 1 / v)).getD k 0) * x) := by
      rw [scaleRows, zipWith_getD _ _ _ k 0 [] []
        (by rw [hs_len]; exact hkK) (by rw [hM_len]; exact hkK)]
    have hMrow : (matMul (transposeM (resp g X)) X).getD k []
        = (transposeM X).map (fun col => dot ((transposeM (resp g X)).getD k []) col) := by
      rw [matMul, map_getD _ _ k [] [] (by rw [hTγ_len]; exact hkK)]
    have hXtrow_len : ((scaleRows ((colSums (resp g X)).map (fun v => 1 / v))
        (matMul (transposeM (resp g X)) X)).getD k []).length = F := by
      rw [hXtrow, List.length_map, hMrow, List.length_map]
      exact hTX_len
    apply ext_getD _ _ 0
    · rw [List.length_zipWith, hXtrow_len, hμk_len, List.length_map, List.length_range]
      exact min_self F
    · intro j hjlen
      have hjF : j < F := by
        rw [List.length_zipWith, hXtrow_len, hμk_len, min_self F] at hjlen
        exact hjlen
      rw [zipWith_getD _ _ _ j 0 0 0 (by rw [hXtrow_len]; exact hjF)
        (by rw [hμk_len]; exact hjF)]
      rw [map_range_getD _ _ j 0 (by rw [hμk_len]; exact hjF)]
      -- evaluate the X_tilde entry
      rw [hXtrow, map_getD _ _ j 0 0 (by
        rw [hMrow, List.length_map]
        rw [hTX_len]
        exact hjF)]
      rw [hMrow, map_getD _ _ j [] 0 (by rw [hTX_len]; exact hjF)]
      rw [transposeM_getD _ K hγrows hγne k hkK, transposeM_getD X F hXrows hXne j hjF]
      rw [map_getD _ _ k 0 0 (by rw [hn_len]; exact hkK)]
      rw [map_getD _ _ k 0 0 (by rw [hn_len]; exact hkK)]
      rw [colSums_getD _ K hγrows hγne k hkK]
      show alphaOf (specSoftCount (resp g X) k) r
          * ((1 / specSoftCount (resp g X) k)
            * dot ((resp g X).map (fun row => row.getD k 0)) (X.map (fun row => row.getD j 0)))
          + (1 - alphaOf (specSoftCount (resp g X) k) r) * ((g.means_.getD k []).getD j 0)
        = specAlpha (resp g X) r k * specMuTilde (resp g X) X k j
          + (1 - specAlpha (resp g X) r k) * ((g.means_.getD k []).getD j 0)
      rw [show dot ((resp g X).map (fun row => row.getD k 0))
          (X.map (fun row => row.getD j 0))
          = (List.zipWith (fun grow xrow => grow.getD k 0 * xrow.getD j 0)
              (resp g X) X).sum from by
        rw [dot, List.zipWith_map]]
      rfl

theorem gmm_eq {β : Type} {g1 g2 : GMM β} (hw : g1.weights_ = g2.weights_)
    (hm : g1.means_ = g2.means_) (hc : g1.covariances_ = g2.covariances_) : g1 = g2 := by
  cases g1
  cases g2
  simp only [GMM.mk.injEq]
  exact ⟨hw, hm, hc⟩

theorem specStep_shape (resp : GMM α → Mat α → Mat α) (X : Mat α) (r : α) (g : GMM α)
    (K F : Nat) (h : isMat K F g.means_) : isMat K F (specStep resp X r g).means_ := by
  obtain ⟨hlen, hrows⟩ := h
  constructor
  · show ((List.range g.means_.length).map _).length = K
    rw [List.length_map, List.length_range]
    exact hlen
  · intro row hrow
    obtain ⟨k, hk, rfl⟩ := List.mem_map.mp hrow
    rw [List.length_map, List.length_range]
    have hkK : k < g.means_.length := List.mem_range.mp hk
    have hmem : g.means_.getD k [] ∈ g.means_ := by
      rw [List.getD_eq_getElem _ _ hkK]
      exact List.getElem_mem _
    exact hrows _ hmem

theorem specStep_iterate_shape (resp : GMM α → Mat α → Mat α) (X : Mat α) (r : α)
    (ubm : GMM α) (K F : Nat) (h : isMat K F ubm.means_) (m : Nat) :
    isMat K F ((specStep resp X r)^[m] ubm).means_ := by
  induction m with
  | zero => exact h
  | succ k ih =>
      rw [Function.iterate_succ_apply']
      exact specStep_shape resp X r _ K F ih

/-- C4: map_adapt runs exactly max_iter iterations, with no convergence
test, and the returned model is precisely the max_iter-fold iterate of the
specification's single MAP update: each iteration recomputes n_k,
mu-tilde_k, alpha_k = n_k / (n_k + r) under the current model and blends
alpha_k mu-tilde_k + (1 - alpha_k) mu_k against the mean the model held at
the start of that same iteration — the progressively adapted mean, not the
original UBM mean. -/
theorem map_adapt_is_iterated_spec_update (resp : GMM α → Mat α → Mat α)
    (ubm : GMM α) (X : Mat α) (max_iter : Nat) (r : α) (T K F : Nat)
    (hT : 0 < T) (hX : isMat T F X) (hresp : RespShape resp X T K F)
    (hubm : isMat K F ubm.means_) :
    map_adapt resp ubm X max_iter r = (specStep resp X r)^[max_iter] ubm := by
  induction max_iter with
  | zero => rfl
  | succ k ih =>
      rw [map_adapt, Function.iterate_succ_apply', Function.iterate_succ_apply']
      rw [← map_adapt, ih]
      have hshape := specStep_iterate_shape resp X r ubm K F hubm k
      refine gmm_eq rfl ?_ rfl
      exact adaptStep_means_eq resp X r _ T K F hT hX (hresp _ hshape) hshape

/-- C4 witness: the hypotheses and the conclusion at the concrete rational
scenario, adapted for three iterations. -/
theorem map_adapt_is_iterated_spec_update_w :
    0 < 1 ∧ isMat 1 1 XQ ∧ RespShape respQ XQ 1 2 1 ∧ isMat 2 1 ubmQ.means_ ∧
    map_adapt respQ ubmQ XQ 3 16 = (specStep respQ XQ 16)^[3] ubmQ :=
  ⟨by decide, by decide, fun _ _ => (by decide : isMat 1 2 [[(1 : ℚ), 0]]), by decide,
    map_adapt_is_iterated_spec_update respQ ubmQ XQ 3 16 1 2 1 (by decide) (by decide)
      (fun _ _ => (by decide : isMat 1 2 [[(1 : ℚ), 0]])) (by decide)⟩

end RefinementLemmas

end Recognition
